import Mathlib

/-!
Shallow embedding of the reconciliation core of the `ome`/`cobradb` repository
(`src/cobradb/dumping/model_dumping.py` and
`src/cobradb/loading/component_loading.py`), together with theorems settling
the specification claims about it.

Numbers: flux bounds and stoichiometric coefficients are embedded as `Rat`;
copy numbers as `Nat`.  Row streams are Lean lists in stream order.
-/

set_option maxRecDepth 4000

namespace Cobradb

/-! ### Decimal rendering of copy numbers

`make_reaction_copy_id` and `increment_id` live in `cobradb/util.py`, which is
not part of the sources; they are modelled from the spec (§4.2, §4.4): the
copy-suffix transform appends `_copy<N>` with `N` the decimal copy number. -/

/-- Fuel-based decimal digit rendering (most significant first);
`fuel > n` is always enough. -/
def natStrAux : Nat → Nat → List Char
  | 0, _ => []
  | fuel + 1, n =>
    if n < 10 then [Nat.digitChar n]
    else natStrAux fuel (n / 10) ++ [Nat.digitChar (n % 10)]

/-- Decimal rendering of a natural number. -/
def natStr (n : Nat) : String := ⟨natStrAux (n + 1) n⟩

/-- Modelled from the spec: `make_reaction_copy_id` from `cobradb.util`
(declared in the repository but not under the given sources) appends the
fixed copy suffix `_copy<N>` to an identifier (§4.2: "a fixed suffix
convention, e.g. append `_copy<N>`"). -/
def make_reaction_copy_id (rid : String) (n : Nat) : String :=
  rid ++ "_copy" ++ natStr n

/-! ### Reaction-instance records and the Duplicate Reaction Resolver

One record per `(ModelReaction, Reaction)` pair, the dictionaries built at
`model_dumping.py` lines 74-87. -/

structure RxnRecord where
  cobra_id : String
  name : String
  gene_reaction_rule : String
  lower_bound : Rat
  upper_bound : Rat
  objective_coefficient : Rat
  original_cobra_ids : List String
  subsystem : String
  copy_number : Nat
deriving DecidableEq, Repr

/-- Number of records in `l` carrying public identifier `rid`
(the size of the group `tups_by_cobra_id[rid]`). -/
def countId (l : List RxnRecord) (rid : String) : Nat :=
  (l.filter (fun d => d.cobra_id == rid)).length

/-- `filter_duplicates` (`model_dumping.py` lines 89-103): group records by
public identifier; every member of a group of size > 1 has its identifier
rewritten to `make_reaction_copy_id` of the original identifier and the
member's copy number; the list itself (length, order, other fields) is
returned as-is. -/
def filter_duplicates (l : List RxnRecord) : List RxnRecord :=
  l.map (fun d =>
    if 1 < countId l d.cobra_id
    then { d with cobra_id := make_reaction_copy_id d.cobra_id d.copy_number }
    else d)

/-- The non-identifier fields of a record (used to state frame properties). -/
def rxnFrame (d : RxnRecord) :
    String × String × Rat × Rat × Rat × List String × String × Nat :=
  (d.name, d.gene_reaction_rule, d.lower_bound, d.upper_bound,
   d.objective_coefficient, d.original_cobra_ids, d.subsystem, d.copy_number)

/-! ### Injectivity of the copy-suffix transform in the copy number -/

theorem digitChar_inj : ∀ a < 10, ∀ b < 10, Nat.digitChar a = Nat.digitChar b → a = b := by
  decide

theorem map_digitChar_inj : ∀ (l₁ l₂ : List Nat), (∀ x ∈ l₁, x < 10) → (∀ x ∈ l₂, x < 10) →
    l₁.map Nat.digitChar = l₂.map Nat.digitChar → l₁ = l₂ := by
  intro l₁
  induction l₁ with
  | nil => intro l₂ _ _ h; cases l₂ <;> simp_all
  | cons a t ih =>
    intro l₂ h₁ h₂ h
    cases l₂ with
    | nil => simp_all
    | cons b t₂ =>
      simp only [List.map_cons, List.cons.injEq] at h
      have hb : a = b := by
        have ha10 : a < 10 := h₁ a (by simp)
        have hb10 : b < 10 := h₂ b (by simp)
        exact digitChar_inj a ha10 b hb10 h.1
      have ht : t = t₂ := ih t₂ (fun x hx => h₁ x (by simp [hx]))
        (fun x hx => h₂ x (by simp [hx])) h.2
      rw [hb, ht]

theorem natStrAux_eq_digits : ∀ (fuel n : Nat), 0 < n → n < fuel →
    natStrAux fuel n = ((Nat.digits 10 n).map Nat.digitChar).reverse := by
  intro fuel
  induction fuel with
  | zero => intro n _ h; omega
  | succ f ih =>
    intro n hn hf
    rw [natStrAux]
    rw [Nat.digits_def' (by norm_num : 1 < 10) hn]
    by_cases h10 : n < 10
    · have hd : n / 10 = 0 := Nat.div_eq_of_lt h10
      have hm : n % 10 = n := Nat.mod_eq_of_lt h10
      simp [h10, hd, hm]
    · have hpos : 0 < n / 10 := Nat.div_pos (by omega) (by norm_num)
      have hlt : n / 10 < f := by
        have := Nat.div_lt_self hn (by norm_num : 1 < 10)
        omega
      simp only [h10, if_false, ih (n / 10) hpos hlt, List.map_cons, List.reverse_cons]

theorem natStr_zero : natStr 0 = "0" := rfl

theorem natStr_inj : ∀ (a b : Nat), natStr a = natStr b → a = b := by
  have key : ∀ (n : Nat), 0 < n →
      (natStr n).data = ((Nat.digits 10 n).map Nat.digitChar).reverse := by
    intro n hn
    show natStrAux (n + 1) n = _
    exact natStrAux_eq_digits (n + 1) n hn (by omega)
  have notzero : ∀ (n : Nat), 0 < n → natStr n ≠ "0" := by
    intro n hn h
    have hd : (natStr n).data = ['0'] := by rw [h]
    rw [key n hn] at hd
    have hrev : (Nat.digits 10 n).map Nat.digitChar = ['0'] := by
      have := congrArg List.reverse hd
      simpa using this
    rcases hds : Nat.digits 10 n with _ | ⟨d, rest⟩
    · rw [hds] at hrev; simp at hrev
    · rw [hds] at hrev
      rcases rest with _ | ⟨e, rest'⟩
      · simp only [List.map_cons, List.map_nil, List.cons.injEq] at hrev
        have hd10 : d < 10 := Nat.digits_lt_base (by norm_num) (by rw [hds]; simp)
        have hd0 : d = 0 := by
          have h0 : Nat.digitChar d = Nat.digitChar 0 := by
            rw [hrev.1]; rfl
          exact digitChar_inj d hd10 0 (by norm_num) h0
        have : n = Nat.ofDigits 10 (Nat.digits 10 n) := (Nat.ofDigits_digits 10 n).symm
        rw [hds, hd0] at this
        simp [Nat.ofDigits] at this
        omega
      · simp at hrev
  intro a b h
  rcases Nat.eq_zero_or_pos a with ha | ha <;> rcases Nat.eq_zero_or_pos b with hb | hb
  · omega
  · subst ha; exact absurd h.symm (notzero b hb)
  · subst hb; exact absurd h (notzero a ha)
  · have hd : (natStr a).data = (natStr b).data := by rw [h]
    rw [key a ha, key b hb] at hd
    have hmap : (Nat.digits 10 a).map Nat.digitChar = (Nat.digits 10 b).map Nat.digitChar :=
      List.reverse_injective hd
    have hdig : Nat.digits 10 a = Nat.digits 10 b :=
      map_digitChar_inj _ _ (fun x hx => Nat.digits_lt_base (by norm_num) hx)
        (fun x hx => Nat.digits_lt_base (by norm_num) hx) hmap
    exact Nat.digits.injective 10 hdig

theorem make_reaction_copy_id_inj (rid : String) (a b : Nat)
    (h : make_reaction_copy_id rid a = make_reaction_copy_id rid b) : a = b := by
  apply natStr_inj
  apply String.ext
  have hd := congrArg String.data h
  simp only [make_reaction_copy_id, String.data_append] at hd
  exact List.append_cancel_left hd

theorem make_reaction_copy_id_ne (rid : String) (n : Nat) :
    make_reaction_copy_id rid n ≠ rid := by
  intro h
  have := congrArg String.length h
  simp only [make_reaction_copy_id, String.length_append] at this
  have h5 : ("_copy" : String).length = 5 := rfl
  omega

/-! ### Counting lemmas for identifier groups -/

theorem two_le_filter_length {α : Type} (p : α → Bool) :
    ∀ (l : List α) (i j : Nat) (di dj : α), i ≠ j → l[i]? = some di →
    l[j]? = some dj → p di = true → p dj = true → 2 ≤ (l.filter p).length := by
  intro l
  induction l with
  | nil => intro i j di dj _ h; simp at h
  | cons a t ih =>
    intro i j di dj hij hi hj hpi hpj
    match i, j with
    | 0, 0 => exact absurd rfl hij
    | 0, j + 1 =>
      have hda : di = a := by simpa using hi.symm
      have hjt : t[j]? = some dj := by simpa using hj
      have hmem : dj ∈ t := by
        rcases List.getElem?_eq_some.mp hjt with ⟨hlt, hget⟩
        exact hget ▸ List.getElem_mem hlt
      have h1 : 0 < (t.filter p).length := by
        rw [List.length_pos]
        intro hnil
        have hdm : dj ∈ t.filter p := List.mem_filter.mpr ⟨hmem, hpj⟩
        rw [hnil] at hdm
        simp at hdm
      rw [List.filter_cons_of_pos (hda ▸ hpi)]
      simp only [List.length_cons]
      omega
    | i + 1, 0 =>
      have hda : dj = a := by simpa using hj.symm
      have hit : t[i]? = some di := by simpa using hi
      have hmem : di ∈ t := by
        rcases List.getElem?_eq_some.mp hit with ⟨hlt, hget⟩
        exact hget ▸ List.getElem_mem hlt
      have h1 : 0 < (t.filter p).length := by
        rw [List.length_pos]
        intro hnil
        have hdm : di ∈ t.filter p := List.mem_filter.mpr ⟨hmem, hpi⟩
        rw [hnil] at hdm
        simp at hdm
      rw [List.filter_cons_of_pos (hda ▸ hpj)]
      simp only [List.length_cons]
      omega
    | i + 1, j + 1 =>
      have hit : t[i]? = some di := by simpa using hi
      have hjt : t[j]? = some dj := by simpa using hj
      have h2 : 2 ≤ (t.filter p).length :=
        ih i j di dj (by omega) hit hjt hpi hpj
      have hle : (t.filter p).length ≤ ((a :: t).filter p).length := by
        rw [List.filter_cons]
        by_cases hpa : p a <;> simp [hpa]
      omega

theorem countId_eq_count_map : ∀ (l : List RxnRecord) (s : String),
    countId l s = (l.map RxnRecord.cobra_id).count s := by
  intro l s
  induction l with
  | nil => rfl
  | cons d t ih =>
    simp only [countId, List.filter_cons, List.map_cons, List.count_cons] at ih ⊢
    by_cases h : d.cobra_id = s
    · subst h
      simp [ih, countId]
    · have h' : ¬ (s = d.cobra_id) := fun hc => h hc.symm
      simp [h, h', ih, countId]

/-! ### Claims about the Duplicate Reaction Resolver (`filter_duplicates`) -/

/-- C10: Frame property of the Duplicate Reaction Resolver: the output list of
`filter_duplicates` has the same length and element order as the input, and
every field other than the identifier (name, gene rule string, bounds,
objective coefficient, original-identifier alias list, subsystem, copy number)
is unchanged at every position. -/
theorem claim_C10_filter_duplicates_frame (l : List RxnRecord) :
    (filter_duplicates l).length = l.length ∧
    (filter_duplicates l).map rxnFrame = l.map rxnFrame := by
  constructor
  · simp [filter_duplicates]
  · simp only [filter_duplicates, List.map_map]
    apply List.map_congr_left
    intro d _
    by_cases h : 1 < countId l d.cobra_id <;> simp [h, rxnFrame]

/-- C2: after `filter_duplicates`, records that shared a public identifier
have pairwise distinct final identifiers (given the data-model invariant that
copy numbers distinguish instances sharing an identifier); exactly the
records in groups of size ≥ 2 are rewritten, to the identifier derived from
the original identifier and the record's copy number; singleton groups are
unchanged. -/
theorem claim_C2_filter_duplicates_correct (l : List RxnRecord)
    (hcn : ∀ (i j : Nat) (di dj : RxnRecord), i ≠ j → l[i]? = some di →
      l[j]? = some dj → di.cobra_id = dj.cobra_id → di.copy_number ≠ dj.copy_number) :
    (∀ (i : Nat) (d : RxnRecord), l[i]? = some d →
      (1 < countId l d.cobra_id →
        (filter_duplicates l)[i]? =
          some { d with cobra_id := make_reaction_copy_id d.cobra_id d.copy_number } ∧
        make_reaction_copy_id d.cobra_id d.copy_number ≠ d.cobra_id) ∧
      (countId l d.cobra_id ≤ 1 → (filter_duplicates l)[i]? = some d)) ∧
    (∀ (i j : Nat) (di dj ri rj : RxnRecord), i ≠ j →
      l[i]? = some di → l[j]? = some dj → di.cobra_id = dj.cobra_id →
      (filter_duplicates l)[i]? = some ri → (filter_duplicates l)[j]? = some rj →
      ri.cobra_id ≠ rj.cobra_id) := by
  have hmap : ∀ (i : Nat) (d : RxnRecord), l[i]? = some d →
      (filter_duplicates l)[i]? = some (if 1 < countId l d.cobra_id
        then { d with cobra_id := make_reaction_copy_id d.cobra_id d.copy_number }
        else d) := by
    intro i d hd
    simp [filter_duplicates, List.getElem?_map, hd]
  constructor
  · intro i d hd
    constructor
    · intro hdup
      refine ⟨?_, make_reaction_copy_id_ne d.cobra_id d.copy_number⟩
      rw [hmap i d hd, if_pos hdup]
    · intro hsing
      rw [hmap i d hd, if_neg (by omega)]
  · intro i j di dj ri rj hij hi hj hid hri hrj
    have hcount : 2 ≤ countId l di.cobra_id := by
      apply two_le_filter_length (fun d => d.cobra_id == di.cobra_id) l i j di dj hij hi hj
      · simp
      · simp [hid]
    have hdupi : 1 < countId l di.cobra_id := by omega
    have hdupj : 1 < countId l dj.cobra_id := by rw [← hid]; omega
    rw [hmap i di hi, if_pos hdupi] at hri
    rw [hmap j dj hj, if_pos hdupj] at hrj
    have hri' : ri = { di with cobra_id := make_reaction_copy_id di.cobra_id di.copy_number } :=
      by injection hri.symm
    have hrj' : rj = { dj with cobra_id := make_reaction_copy_id dj.cobra_id dj.copy_number } :=
      by injection hrj.symm
    rw [hri', hrj']
    simp only
    rw [← hid]
    intro heq
    exact hcn i j di dj hij hi hj hid (make_reaction_copy_id_inj di.cobra_id _ _ heq)

/-- A concrete pair of reaction instances sharing the identifier `PGI`,
with copy numbers 1 and 2. -/
def pgiRecord1 : RxnRecord :=
  { cobra_id := "PGI", name := "pgi one", gene_reaction_rule := "b4025",
    lower_bound := -1000, upper_bound := 1000, objective_coefficient := 0,
    original_cobra_ids := ["PGI_old"], subsystem := "Glycolysis", copy_number := 1 }

def pgiRecord2 : RxnRecord :=
  { cobra_id := "PGI", name := "pgi two", gene_reaction_rule := "b4025",
    lower_bound := 0, upper_bound := 1000, objective_coefficient := 0,
    original_cobra_ids := ["PGI_old"], subsystem := "Glycolysis", copy_number := 2 }

/-- Witness for C2: on the two-instance `PGI` input, the resolver rewrites
position 0 to `PGI_copy1`. -/
theorem claim_C2_witness :
    (filter_duplicates [pgiRecord1, pgiRecord2])[0]? =
      some { pgiRecord1 with cobra_id := "PGI_copy1" } := by
  have h := (claim_C2_filter_duplicates_correct [pgiRecord1, pgiRecord2] ?_).1 0 pgiRecord1 rfl
  · have h2 := (h.1 (by decide)).1
    rw [h2]
    decide
  · intro i j di dj hij hi hj hid
    match i, j with
    | 0, 0 => exact absurd rfl hij
    | 0, 1 =>
      have hdi : di = pgiRecord1 := by simpa using hi.symm
      have hdj : dj = pgiRecord2 := by simpa using hj.symm
      rw [hdi, hdj]; decide
    | 1, 0 =>
      have hdi : di = pgiRecord2 := by simpa using hi.symm
      have hdj : dj = pgiRecord1 := by simpa using hj.symm
      rw [hdi, hdj]; decide
    | 1, 1 => exact absurd rfl hij
    | _ + 2, _ => simp at hi
    | 0, _ + 2 => simp at hj
    | 1, _ + 2 => simp at hj

/-- C9 counterexample: the resolver is not idempotent.  With instances
`A` (copy 1), `A` (copy 2) and `A_copy1` (copy 7), the first application
renames the first two to `A_copy1`, `A_copy2`, which collides with the third
record's original identifier; the second application then renames again. -/
def c9rec (rid : String) (n : Nat) : RxnRecord :=
  { cobra_id := rid, name := "", gene_reaction_rule := "",
    lower_bound := 0, upper_bound := 0, objective_coefficient := 0,
    original_cobra_ids := [], subsystem := "", copy_number := n }

theorem claim_C9_counterexample :
    filter_duplicates (filter_duplicates [c9rec "A" 1, c9rec "A" 2, c9rec "A_copy1" 7]) ≠
      filter_duplicates [c9rec "A" 1, c9rec "A" 2, c9rec "A_copy1" 7] := by
  decide

/-- C9 (amended): the resolver is idempotent on every input whose resolved
output has pairwise distinct identifiers: applying `filter_duplicates` to
such an output returns it unchanged. -/
theorem claim_C9_filter_duplicates_idempotent (l : List RxnRecord)
    (h : ((filter_duplicates l).map RxnRecord.cobra_id).Nodup) :
    filter_duplicates (filter_duplicates l) = filter_duplicates l := by
  have hcount : ∀ d ∈ filter_duplicates l, ¬ 1 < countId (filter_duplicates l) d.cobra_id := by
    intro d hd
    rw [countId_eq_count_map]
    have := List.nodup_iff_count_le_one.mp h d.cobra_id
    omega
  conv_lhs => rw [filter_duplicates]
  conv_rhs => rw [← List.map_id (filter_duplicates l)]
  apply List.map_congr_left
  intro d hd
  rw [if_neg (hcount d hd)]
  rfl

/-- Witness for C9 (amended): on the two-instance `PGI` input the resolved
identifiers are distinct and a second resolution is a no-op. -/
theorem claim_C9_witness :
    filter_duplicates (filter_duplicates [pgiRecord1, pgiRecord2]) =
      filter_duplicates [pgiRecord1, pgiRecord2] :=
  claim_C9_filter_duplicates_idempotent [pgiRecord1, pgiRecord2] (by decide)

/-! ### The Alias Aggregator

The loop pattern at `model_dumping.py` lines 42-47 (genes) and 137-142
(metabolites): one pass over `(grouping key, display name, alias)` rows,
keeping the first `(key, name)` pair per key and accumulating every alias
per key in a `defaultdict(list)`.  The dictionary is embedded as an
association list in key-insertion order (membership is tested before the
append, and the `defaultdict` append creates the key slot). -/

structure AggState where
  names : List (String × String)
  dict : List (String × List String)
deriving DecidableEq, Repr

def dictHas (d : List (String × List String)) (k : String) : Bool :=
  d.any (fun p => p.1 == k)

def dictAppend (d : List (String × List String)) (k v : String) :
    List (String × List String) :=
  if dictHas d k
  then d.map (fun p => if p.1 == k then (p.1, p.2 ++ [v]) else p)
  else d ++ [(k, [v])]

def dictGet (d : List (String × List String)) (k : String) : List String :=
  match d.find? (fun p => p.1 == k) with
  | some p => p.2
  | none => []

/-- One loop iteration: the first row seen for a key records the display
name; every row appends its alias to the key's list. -/
def aggStep (st : AggState) (row : String × String × String) : AggState :=
  { names := if dictHas st.dict row.1 then st.names else st.names ++ [(row.1, row.2.1)],
    dict := dictAppend st.dict row.1 row.2.2 }

def aggregateFrom (st : AggState) : List (String × String × String) → AggState
  | [] => st
  | r :: rest => aggregateFrom (aggStep st r) rest

/-- The Alias Aggregator: the full pass starting from the empty state. -/
def aggregate (rows : List (String × String × String)) : AggState :=
  aggregateFrom ⟨[], []⟩ rows

/-- The distinct elements of a list in first-seen order. -/
def firstSeen (ks : List String) : List String :=
  ks.foldl (fun acc k => if acc.any (fun x => x == k) then acc else acc ++ [k]) []

/-- Display name of the first row carrying key `k` (empty if none). -/
def firstNameOf (rows : List (String × String × String)) (k : String) : String :=
  match rows.find? (fun r => r.1 == k) with
  | some r => r.2.1
  | none => ""

/-- All aliases carried by rows with key `k`, in row order. -/
def aliasesOf (rows : List (String × String × String)) (k : String) : List String :=
  (rows.filter (fun r => r.1 == k)).map (fun r => r.2.2)

theorem aggregateFrom_append (r : String × String × String) :
    ∀ (l : List (String × String × String)) (st : AggState),
    aggregateFrom st (l ++ [r]) = aggStep (aggregateFrom st l) r := by
  intro l
  induction l with
  | nil => intro st; rfl
  | cons a t ih => intro st; exact ih (aggStep st a)

theorem firstSeen_append_single (l : List String) (k : String) :
    firstSeen (l ++ [k]) =
      if k ∈ firstSeen l then firstSeen l else firstSeen l ++ [k] := by
  have h1 : firstSeen (l ++ [k]) =
      if (firstSeen l).any (fun x => x == k) then firstSeen l else firstSeen l ++ [k] := by
    simp only [firstSeen, List.foldl_append, List.foldl_cons, List.foldl_nil]
  rw [h1]
  by_cases h : k ∈ firstSeen l
  · have hb : ((firstSeen l).any fun x => x == k) = true := by
      rw [List.any_eq_true]
      exact ⟨k, h, by simp⟩
    simp [hb, h]
  · have hb : ((firstSeen l).any fun x => x == k) = false := by
      rw [List.any_eq_false]
      intro x hx
      simp only [beq_iff_eq]
      rintro rfl
      exact h hx
    simp [hb, h]

theorem mem_firstSeen :
    ∀ (l : List String) (k : String), k ∈ firstSeen l ↔ k ∈ l := by
  intro l
  induction l using List.reverseRecOn with
  | nil => simp [firstSeen]
  | append_singleton t x ih =>
    intro k
    rw [firstSeen_append_single]
    by_cases h : x ∈ firstSeen t
    · rw [if_pos h]
      simp only [List.mem_append, List.mem_singleton, ih]
      constructor
      · exact Or.inl
      · rintro (hk | hk)
        · exact hk
        · exact hk ▸ (ih x).mp h
    · rw [if_neg h]
      simp [ih]

theorem firstSeen_nodup : ∀ (l : List String), (firstSeen l).Nodup := by
  intro l
  induction l using List.reverseRecOn with
  | nil => simp [firstSeen]
  | append_singleton t x ih =>
    rw [firstSeen_append_single]
    by_cases h : x ∈ firstSeen t
    · rw [if_pos h]; exact ih
    · rw [if_neg h]
      simp only [List.nodup_append, List.nodup_singleton]
      exact ⟨ih, trivial, by simpa using fun hx => h hx⟩

/-- Structural characterization of the aggregator: the `(key, name)` list
holds the distinct keys in first-seen order with each key's first-seen
display name, and the dictionary holds, per key in the same order, every
alias of the key's rows in row order. -/
theorem aggregate_spec : ∀ (rows : List (String × String × String)),
    (aggregate rows).names =
      (firstSeen (rows.map (fun r => r.1))).map (fun k => (k, firstNameOf rows k)) ∧
    (aggregate rows).dict =
      (firstSeen (rows.map (fun r => r.1))).map (fun k => (k, aliasesOf rows k)) := by
  intro rows
  induction rows using List.reverseRecOn with
  | nil => exact ⟨rfl, rfl⟩
  | append_singleton l r ih =>
    obtain ⟨ihn, ihd⟩ := ih
    have hagg : aggregate (l ++ [r]) = aggStep (aggregate l) r := aggregateFrom_append r l _
    have hkeys : (l ++ [r]).map (fun x => x.1) = l.map (fun x => x.1) ++ [r.1] := by simp
    have hhas : dictHas (aggregate l).dict r.1 = true ↔
        r.1 ∈ firstSeen (l.map (fun x => x.1)) := by
      rw [ihd]
      unfold dictHas
      rw [List.any_eq_true]
      constructor
      · rintro ⟨p, hp, hpk⟩
        rw [List.mem_map] at hp
        obtain ⟨k', hk', rfl⟩ := hp
        rw [beq_iff_eq] at hpk
        exact hpk ▸ hk'
      · intro hmem
        exact ⟨(r.1, aliasesOf l r.1), List.mem_map.mpr ⟨r.1, hmem, rfl⟩, by simp⟩
    have hname_stable : ∀ k', k' ∈ l.map (fun x => x.1) →
        firstNameOf (l ++ [r]) k' = firstNameOf l k' := by
      intro k' hmem
      unfold firstNameOf
      rw [List.find?_append]
      have hsome : (l.find? (fun x => x.1 == k')).isSome := by
        rw [List.find?_isSome]
        rw [List.mem_map] at hmem
        obtain ⟨row, hrow, hrk⟩ := hmem
        exact ⟨row, hrow, by simp [hrk]⟩
      cases hfind : l.find? (fun x => x.1 == k') with
      | none => rw [hfind] at hsome; simp at hsome
      | some p => simp [hfind, Option.or]
    have halias_split : ∀ k', aliasesOf (l ++ [r]) k' =
        aliasesOf l k' ++ (if r.1 == k' then [r.2.2] else []) := by
      intro k'
      unfold aliasesOf
      rw [List.filter_append]
      by_cases hrk : r.1 == k' <;> simp [List.filter_cons, hrk]
    by_cases hseen : r.1 ∈ firstSeen (l.map (fun x => x.1))
    · -- key already seen: names unchanged, the key's alias list grows
      have hhas' : dictHas (aggregate l).dict r.1 = true := hhas.mpr hseen
      constructor
      · rw [hagg]
        show (if dictHas (aggregate l).dict r.1 then (aggregate l).names
              else (aggregate l).names ++ [(r.1, r.2.1)]) = _
        rw [hhas', if_pos rfl, ihn, hkeys, firstSeen_append_single, if_pos hseen]
        apply List.map_congr_left
        intro k' hk'
        rw [hname_stable k' ((mem_firstSeen _ k').mp hk')]
      · rw [hagg]
        show dictAppend (aggregate l).dict r.1 r.2.2 = _
        unfold dictAppend
        rw [hhas', if_pos rfl, ihd, hkeys, firstSeen_append_single, if_pos hseen,
          List.map_map]
        apply List.map_congr_left
        intro k' hk'
        rw [halias_split k']
        by_cases hrk : r.1 = k'
        · simp [hrk, Function.comp]
        · have h1 : (k' == r.1) = false := by
            simp only [beq_eq_false_iff_ne]
            exact fun h => hrk h.symm
          have h2 : (r.1 == k') = false := by simpa using hrk
          simp [Function.comp, h1, h2]
    · -- new key: a names entry and a fresh singleton alias list are appended
      have hhas' : dictHas (aggregate l).dict r.1 = false := by
        cases hd : dictHas (aggregate l).dict r.1
        · rfl
        · exact absurd (hhas.mp hd) hseen
      have hnotmem : r.1 ∉ l.map (fun x => x.1) := fun hc =>
        hseen ((mem_firstSeen _ r.1).mpr hc)
      constructor
      · rw [hagg]
        show (if dictHas (aggregate l).dict r.1 then (aggregate l).names
              else (aggregate l).names ++ [(r.1, r.2.1)]) = _
        rw [hhas', ihn, hkeys, firstSeen_append_single, if_neg hseen]
        simp only [Bool.false_eq_true, if_false, List.map_append, List.map_cons, List.map_nil]
        congr 1
        · apply List.map_congr_left
          intro k' hk'
          rw [hname_stable k' ((mem_firstSeen _ k').mp hk')]
        · have hfindl : l.find? (fun x => x.1 == r.1) = none := by
            rw [List.find?_eq_none]
            intro x hx
            simp only [beq_iff_eq]
            intro hc
            exact hnotmem (List.mem_map.mpr ⟨x, hx, hc⟩)
          unfold firstNameOf
          rw [List.find?_append, hfindl]
          simp [Option.or, List.find?]
      · rw [hagg]
        show dictAppend (aggregate l).dict r.1 r.2.2 = _
        unfold dictAppend
        rw [hhas', ihd, hkeys, firstSeen_append_single, if_neg hseen]
        simp only [Bool.false_eq_true, if_false, List.map_append, List.map_cons, List.map_nil]
        congr 1
        · apply List.map_congr_left
          intro k' hk'
          rw [halias_split k']
          have hne : r.1 ≠ k' := fun hc => hseen (hc ▸ hk')
          have : (r.1 == k') = false := by simpa using hne
          simp [this]
        · have hfiltl : aliasesOf l r.1 = [] := by
            unfold aliasesOf
            rw [List.map_eq_nil_iff, List.filter_eq_nil_iff]
            intro x hx
            simp only [beq_iff_eq]
            intro hc
            exact hnotmem (List.mem_map.mpr ⟨x, hx, hc⟩)
          rw [halias_split r.1, hfiltl]
          simp

theorem dictGet_aggregate (rows : List (String × String × String)) (k : String) :
    dictGet (aggregate rows).dict k = aliasesOf rows k := by
  rw [(aggregate_spec rows).2]
  unfold dictGet
  rw [List.find?_map]
  have hcomp : ((fun p : String × List String => p.1 == k) ∘
      (fun k' => (k', aliasesOf rows k'))) = (fun k' : String => k' == k) := rfl
  rw [hcomp]
  by_cases h : k ∈ firstSeen (rows.map (fun r => r.1))
  · have hsome : ((firstSeen (rows.map fun r => r.1)).find?
        (fun k' => k' == k)).isSome := by
      rw [List.find?_isSome]
      exact ⟨k, h, by simp⟩
    cases hfind : (firstSeen (rows.map fun r => r.1)).find? (fun k' => k' == k) with
    | none => rw [hfind] at hsome; simp at hsome
    | some x =>
      have hx : x = k := by simpa using List.find?_some hfind
      subst hx
      rfl
  · have hnone : (firstSeen (rows.map fun r => r.1)).find? (fun k' => k' == k) = none := by
      rw [List.find?_eq_none]
      intro x hx
      simp only [beq_iff_eq]
      rintro rfl
      exact h hx
    rw [hnone]
    have hk : k ∉ rows.map (fun r => r.1) := fun hc => h ((mem_firstSeen _ k).mpr hc)
    have hfilt : rows.filter (fun r => r.1 == k) = [] := by
      rw [List.filter_eq_nil_iff]
      intro x hx
      simp only [beq_iff_eq]
      rintro rfl
      exact hk (List.mem_map.mpr ⟨x, hx, rfl⟩)
    show ([] : List String) = aliasesOf rows k
    unfold aliasesOf
    rw [hfilt]
    rfl

/-- C4: the Alias Aggregator yields exactly one entry per distinct grouping
key, in first-seen order; each entry's display name comes from the first row
with that key; each entry's alias set is the union (duplicates collapsed,
order-independent) of all aliases observed for the key; the empty input
yields the empty result. -/
theorem claim_C4_alias_aggregator (rows : List (String × String × String)) :
    aggregate [] = ⟨[], []⟩ ∧
    (aggregate rows).names.map Prod.fst = firstSeen (rows.map (fun r => r.1)) ∧
    ((aggregate rows).names.map Prod.fst).Nodup ∧
    (∀ k n, (k, n) ∈ (aggregate rows).names →
      (rows.find? (fun r => r.1 == k)).map (fun r => r.2.1) = some n) ∧
    (∀ k, (dictGet (aggregate rows).dict k).toFinset =
      ((rows.filter (fun r => r.1 == k)).map (fun r => r.2.2)).toFinset) := by
  have hkeys : (aggregate rows).names.map Prod.fst = firstSeen (rows.map (fun r => r.1)) := by
    rw [(aggregate_spec rows).1, List.map_map]
    have hc : (Prod.fst ∘ fun k : String => (k, firstNameOf rows k)) = id := rfl
    rw [hc, List.map_id]
  refine ⟨rfl, hkeys, ?_, ?_, ?_⟩
  · rw [hkeys]; exact firstSeen_nodup _
  · intro k n hkn
    rw [(aggregate_spec rows).1, List.mem_map] at hkn
    obtain ⟨k', hk', heq⟩ := hkn
    obtain ⟨rfl, rfl⟩ : k' = k ∧ firstNameOf rows k' = n := by
      constructor
      · exact congrArg Prod.fst heq
      · exact congrArg Prod.snd heq
    have hmem : k' ∈ rows.map (fun r => r.1) := (mem_firstSeen _ k').mp hk'
    have hsome : (rows.find? (fun r => r.1 == k')).isSome := by
      rw [List.find?_isSome]
      rw [List.mem_map] at hmem
      obtain ⟨row, hrow, hrk⟩ := hmem
      exact ⟨row, hrow, by simp [hrk]⟩
    cases hfind : rows.find? (fun r => r.1 == k') with
    | none => rw [hfind] at hsome; simp at hsome
    | some p =>
      unfold firstNameOf
      rw [hfind]
      rfl
  · intro k
    rw [dictGet_aggregate]
    rfl

/-- Witness for C4: a concrete four-row stream with key `g1` occurring three
times; the aggregator's alias set for `g1` equals the observed-alias union. -/
theorem claim_C4_witness :
    (dictGet (aggregate [("g1", "name1", "a"), ("g2", "n2", "b"),
        ("g1", "other", "c"), ("g1", "n", "a")]).dict "g1").toFinset =
      (([("g1", "name1", "a"), ("g2", "n2", "b"), ("g1", "other", "c"),
        ("g1", "n", "a")].filter (fun r => r.1 == "g1")).map (fun r => r.2.2)).toFinset :=
  (claim_C4_alias_aggregator _).2.2.2.2 "g1"

/-! ### Metabolite assembly (`model_dumping.py` lines 144-156)

One row per entry of `metabolite_names`; component and compartment
identifiers and the charge are nullable in the source store. -/

structure MetRow where
  component_id : Option String
  component_name : Option String
  formula : Option String
  charge : Option Int
  compartment_id : Option String
deriving DecidableEq, Repr

structure CobraMetabolite where
  id : String
  compartment : String
  formula : Option String
  charge : Option Int
  name : Option String
deriving DecidableEq, Repr

/-- The `cobra.core.Metabolite` built from a surviving row: its identifier
concatenates component and compartment identifiers with the fixed `_`
separator. -/
def mkMetabolite (c t : String) (row : MetRow) : CobraMetabolite :=
  { id := c ++ "_" ++ t, compartment := t, formula := row.formula,
    charge := row.charge, name := row.component_name }

/-- One iteration of the metabolite loop: a row with a null component or
compartment identifier is skipped; otherwise a metabolite is appended and
its compartment recorded. -/
def metStep (acc : List CobraMetabolite × Finset String) (row : MetRow) :
    List CobraMetabolite × Finset String :=
  match row.component_id, row.compartment_id with
  | some c, some t => (acc.1 ++ [mkMetabolite c t row], insert t acc.2)
  | _, _ => acc

/-- The metabolite assembly loop over all rows. -/
def assembleMetabolites (rows : List MetRow) : List CobraMetabolite × Finset String :=
  rows.foldl metStep ([], ∅)

/-! ### The Matrix Linker (`model_dumping.py` lines 163-202)

Reactions carry their stoichiometry map as an association list from
metabolite identifier to coefficient.  The probe loop's identifier sequence
`_copy1`, `_copy2`, … is modelled from the spec (§4.4), since `increment_id`
of `cobradb.util` is not under the given sources; the loop itself (attach on
every hit, break on the first `KeyError`) follows the source.  The source's
`while True` loop carries no bound; the embedding runs it on fuel
`length + 1`, which §4.4/§9's termination analysis shows is never
exhausted before the first missing probe. -/

structure CobraReaction where
  id : String
  mets : List (String × Rat)
deriving DecidableEq, Repr

structure StoichRow where
  stoich : Rat
  reaction_id : String
  component_id : String
  compartment_id : String
deriving DecidableEq, Repr

def containsId (rs : List CobraReaction) (rid : String) : Bool :=
  rs.any (fun r => r.id == rid)

def hasMet (r : CobraReaction) (m : String) : Bool :=
  r.mets.any (fun p => p.1 == m)

/-- `r.add_metabolites({m: c})` guarded by `if m not in r.metabolites`,
applied to the reaction(s) with identifier `rid`. -/
def attach (rs : List CobraReaction) (rid m : String) (c : Rat) : List CobraReaction :=
  rs.map (fun r =>
    if r.id == rid
    then (if hasMet r m then r else { r with mets := r.mets ++ [(m, c)] })
    else r)

/-- The `while True` probe loop: try `base_copy<n>`; on a hit attach the
coefficient (guarded) and continue with `n + 1`; break on the first miss. -/
def probeLoop (base m : String) (c : Rat) : Nat → Nat → List CobraReaction → List CobraReaction
  | 0, _, rs => rs
  | fuel + 1, n, rs =>
    if containsId rs (make_reaction_copy_id base n)
    then probeLoop base m c fuel (n + 1) (attach rs (make_reaction_copy_id base n) m c)
    else rs

/-- The warning logged when a stoichiometry row's metabolite key is absent. -/
def missingMetMsg (row : StoichRow) : String :=
  "Metabolite not found " ++ row.component_id ++ " in compartment " ++
    row.compartment_id ++ " for reaction " ++ row.reaction_id

/-- One iteration of the matrix loop over `(reactions, warnings)`. -/
def linkRow (metIds : List String) (st : List CobraReaction × List String)
    (row : StoichRow) : List CobraReaction × List String :=
  let mkey := row.component_id ++ "_" ++ row.compartment_id
  if metIds.any (fun x => x == mkey) then
    if containsId st.1 row.reaction_id then
      (attach st.1 row.reaction_id mkey row.stoich, st.2)
    else
      (probeLoop row.reaction_id mkey row.stoich (st.1.length + 1) 1 st.1, st.2)
  else
    (st.1, st.2 ++ [missingMetMsg row])

/-- The full matrix pass. -/
def linkMatrix (metIds : List String) (rows : List StoichRow)
    (rs : List CobraReaction) : List CobraReaction × List String :=
  rows.foldl (linkRow metIds) (rs, [])

/-- Attach the coefficient to `base_copy<n>`, `base_copy<n+1>`, …,
`base_copy<n+k-1>` in order (the effect of `k` consecutive probe hits). -/
def attachSeq (base m : String) (c : Rat) : Nat → Nat → List CobraReaction → List CobraReaction
  | _, 0, rs => rs
  | n, k + 1, rs => attachSeq base m c (n + 1) k (attach rs (make_reaction_copy_id base n) m c)

theorem metStep_null (acc : List CobraMetabolite × Finset String) (row : MetRow)
    (h : row.component_id = none ∨ row.compartment_id = none) : metStep acc row = acc := by
  unfold metStep
  rcases h with h | h
  · rw [h]
  · rw [h]
    cases row.component_id <;> rfl

theorem assembleMets_mem_aux : ∀ (rows : List MetRow)
    (acc : List CobraMetabolite × Finset String) (m : CobraMetabolite),
    m ∈ (rows.foldl metStep acc).1 → m ∈ acc.1 ∨
      ∃ row c t, row ∈ rows ∧ row.component_id = some c ∧
        row.compartment_id = some t ∧ m = mkMetabolite c t row := by
  intro rows
  induction rows with
  | nil => intro acc m h; exact Or.inl h
  | cons row rest ih =>
    intro acc m h
    rw [List.foldl_cons] at h
    rcases ih (metStep acc row) m h with hacc | ⟨row', c, t, hmem, hc, ht, hm⟩
    · rcases hcc : row.component_id with _ | c
      · left
        rwa [metStep_null acc row (Or.inl hcc)] at hacc
      · rcases hct : row.compartment_id with _ | t
        · left
          rwa [metStep_null acc row (Or.inr hct)] at hacc
        · have hstep : (metStep acc row).1 = acc.1 ++ [mkMetabolite c t row] := by
            unfold metStep
            rw [hcc, hct]
          rw [hstep] at hacc
          rcases List.mem_append.mp hacc with h1 | h2
          · exact Or.inl h1
          · right
            exact ⟨row, c, t, by simp, hcc, hct, by simpa using h2⟩
    · right
      exact ⟨row', c, t, by simp [hmem], hc, ht, hm⟩

/-- C7: a metabolite row with a null component or compartment identifier is
discarded: removing it from the stream leaves the assembled metabolite list
and the compartment table unchanged; and every assembled metabolite comes
from a row with non-null identifiers and is identified by concatenating
component and compartment identifiers with the fixed `_` separator. -/
theorem claim_C7_metabolite_assembly (l₁ l₂ : List MetRow) (r : MetRow)
    (hr : r.component_id = none ∨ r.compartment_id = none) :
    assembleMetabolites (l₁ ++ r :: l₂) = assembleMetabolites (l₁ ++ l₂) ∧
    (∀ (rows : List MetRow) (m : CobraMetabolite), m ∈ (assembleMetabolites rows).1 →
      ∃ row c t, row ∈ rows ∧ row.component_id = some c ∧ row.compartment_id = some t ∧
        m = mkMetabolite c t row ∧ m.id = c ++ "_" ++ t) := by
  constructor
  · unfold assembleMetabolites
    rw [List.foldl_append, List.foldl_append, List.foldl_cons, metStep_null _ r hr]
  · intro rows m hm
    rcases assembleMets_mem_aux rows ([], ∅) m hm with h0 | ⟨row, c, t, hmem, hc, ht, heq⟩
    · simp at h0
    · exact ⟨row, c, t, hmem, hc, ht, heq, by rw [heq]; rfl⟩

def glcRow (cpt : String) : MetRow :=
  { component_id := some "glc", component_name := some "D-glucose",
    formula := some "C6H12O6", charge := some 0, compartment_id := some cpt }

def nullMetRow : MetRow :=
  { component_id := none, component_name := some "orphan",
    formula := none, charge := none, compartment_id := some "c" }

/-- Witness for C7: dropping the null-component row between the two glucose
rows changes nothing. -/
theorem claim_C7_witness :
    assembleMetabolites [glcRow "c", nullMetRow, glcRow "e"] =
      assembleMetabolites [glcRow "c", glcRow "e"] :=
  (claim_C7_metabolite_assembly [glcRow "c"] [glcRow "e"] nullMetRow (Or.inl rfl)).1

theorem containsId_attach (rs : List CobraReaction) (rid m : String) (c : Rat)
    (x : String) : containsId (attach rs rid m c) x = containsId rs x := by
  unfold containsId attach
  rw [List.any_map]
  congr 1
  funext r
  simp only [Function.comp]
  by_cases h1 : r.id == rid
  · rw [if_pos h1]
    by_cases h2 : hasMet r m
    · rw [if_pos h2]
    · rw [if_neg h2]
  · rw [if_neg h1]

theorem probeLoop_nomatch (base m : String) (c : Rat) (fuel n : Nat)
    (rs : List CobraReaction)
    (h : containsId rs (make_reaction_copy_id base n) = false) :
    probeLoop base m c fuel n rs = rs := by
  cases fuel with
  | zero => rfl
  | succ f =>
    unfold probeLoop
    rw [h]
    rfl

/-- C8: a stoichiometry row whose metabolite key is absent from the
assembled collection is dropped: the reactions are unchanged, exactly one
missing-metabolite warning is appended, and processing continues with the
remaining rows from that state. -/
theorem claim_C8_missing_metabolite (metIds : List String) (rs : List CobraReaction)
    (w : List String) (row : StoichRow)
    (h : (row.component_id ++ "_" ++ row.compartment_id) ∉ metIds) :
    linkRow metIds (rs, w) row = (rs, w ++ [missingMetMsg row]) ∧
    ∀ (rest : List StoichRow), List.foldl (linkRow metIds) (rs, w) (row :: rest) =
      List.foldl (linkRow metIds) (rs, w ++ [missingMetMsg row]) rest := by
  have hany : (metIds.any fun x => x == row.component_id ++ "_" ++ row.compartment_id)
      = false := by
    rw [List.any_eq_false]
    intro x hx
    simp only [beq_iff_eq]
    rintro rfl
    exact h hx
  have h1 : linkRow metIds (rs, w) row = (rs, w ++ [missingMetMsg row]) := by
    unfold linkRow
    simp [hany]
  exact ⟨h1, fun rest => by rw [List.foldl_cons, h1]⟩

/-- Witness for C8: the key `xyz_c` is not among the assembled metabolites,
so the row is dropped with one warning. -/
theorem claim_C8_witness :
    linkRow ["glc_c"] ([{ id := "PGI", mets := [] }], []) ⟨1, "PGI", "xyz", "c"⟩ =
      ([{ id := "PGI", mets := [] }], [missingMetMsg ⟨1, "PGI", "xyz", "c"⟩]) :=
  (claim_C8_missing_metabolite ["glc_c"] [{ id := "PGI", mets := [] }] []
    ⟨1, "PGI", "xyz", "c"⟩ (by decide)).1

/-- C3 counterexample: metabolite `g_c` exists but reaction `A` does not and
no probe (`A_copy1`, …) matches; the row is dropped with NO warning of any
kind — the claimed `MissingReactionWarning` is never recorded (the warning
list stays empty). -/
theorem claim_C3_counterexample :
    linkRow ["g_c"] ([{ id := "B", mets := [] }], []) ⟨1, "A", "g", "c"⟩ =
      ([{ id := "B", mets := [] }], []) := by
  decide

/-- C3 (amended): a stoichiometry row whose reaction identifier has no exact
match and for which no probed copy-suffixed identifier matches is dropped
silently: the reactions and the warning list are both unchanged (in
particular no warning is recorded for it). -/
theorem claim_C3_amended_silent_drop (metIds : List String) (rs : List CobraReaction)
    (w : List String) (row : StoichRow)
    (hmet : (row.component_id ++ "_" ++ row.compartment_id) ∈ metIds)
    (hexact : containsId rs row.reaction_id = false)
    (hprobe : ∀ n, 1 ≤ n → containsId rs (make_reaction_copy_id row.reaction_id n) = false) :
    linkRow metIds (rs, w) row = (rs, w) := by
  have hany : (metIds.any fun x => x == row.component_id ++ "_" ++ row.compartment_id)
      = true := by
    rw [List.any_eq_true]
    exact ⟨_, hmet, by simp⟩
  unfold linkRow
  simp only [hany, if_true, hexact, Bool.false_eq_true, if_false]
  rw [probeLoop_nomatch _ _ _ _ _ _ (hprobe 1 le_rfl)]

/-- Witness for C3 (amended): concrete silent drop. -/
theorem claim_C3_witness :
    linkRow ["g_c"] ([{ id := "B", mets := [] }], ["earlier"]) ⟨1, "A", "g", "c"⟩ =
      ([{ id := "B", mets := [] }], ["earlier"]) := by
  apply claim_C3_amended_silent_drop
  · decide
  · decide
  · intro n hn
    unfold containsId
    rw [List.any_eq_false]
    intro r hr
    have hrB : r = { id := "B", mets := [] } := by simpa using hr
    rw [hrB]
    simp only [beq_iff_eq]
    intro hc
    have hlen := congrArg String.length hc
    have h5 : ("_copy" : String).length = 5 := rfl
    simp only [make_reaction_copy_id, String.length_append] at hlen
    have hB : ("B" : String).length = 1 := rfl
    have hA : ("A" : String).length = 1 := rfl
    omega

theorem probeLoop_run (base m : String) (c : Rat) :
    ∀ (k fuel n : Nat) (rs : List CobraReaction), k < fuel →
    (∀ j, n ≤ j → j < n + k → containsId rs (make_reaction_copy_id base j) = true) →
    containsId rs (make_reaction_copy_id base (n + k)) = false →
    probeLoop base m c fuel n rs = attachSeq base m c n k rs := by
  intro k
  induction k with
  | zero =>
    intro fuel n rs hf _ hgap
    rw [show n + 0 = n from rfl] at hgap
    rw [probeLoop_nomatch base m c fuel n rs hgap]
    rfl
  | succ k ih =>
    intro fuel n rs hf hrun hgap
    cases fuel with
    | zero => omega
    | succ f =>
      unfold probeLoop
      have h1 : containsId rs (make_reaction_copy_id base n) = true :=
        hrun n le_rfl (by omega)
      rw [h1]
      simp only [if_true]
      have hstable := containsId_attach rs (make_reaction_copy_id base n) m c
      rw [ih f (n + 1) (attach rs (make_reaction_copy_id base n) m c) (by omega)
        (fun j hj1 hj2 => by rw [hstable]; exact hrun j (by omega) (by omega))
        (by rw [hstable, show n + 1 + k = n + (k + 1) from by omega]; exact hgap)]
      rfl

theorem run_le_length (rs : List CobraReaction) (base : String) (k : Nat)
    (hrun : ∀ j, 1 ≤ j → j ≤ k → containsId rs (make_reaction_copy_id base j) = true) :
    k ≤ rs.length := by
  have hnd : ((List.range k).map (fun j => make_reaction_copy_id base (j + 1))).Nodup := by
    apply List.Nodup.map
    · intro a b hab
      have := make_reaction_copy_id_inj base (a + 1) (b + 1) hab
      omega
    · exact List.nodup_range k
  have hsub : ∀ s ∈ (List.range k).map (fun j => make_reaction_copy_id base (j + 1)),
      s ∈ rs.map CobraReaction.id := by
    intro s hs
    rw [List.mem_map] at hs
    obtain ⟨j, hj, rfl⟩ := hs
    rw [List.mem_range] at hj
    have hc := hrun (j + 1) (by omega) (by omega)
    unfold containsId at hc
    rw [List.any_eq_true] at hc
    obtain ⟨r, hr, hid⟩ := hc
    rw [beq_iff_eq] at hid
    exact List.mem_map.mpr ⟨r, hr, hid⟩
  have hlen : ((List.range k).map (fun j => make_reaction_copy_id base (j + 1))).length = k := by
    simp
  calc k = ((List.range k).map (fun j => make_reaction_copy_id base (j + 1))).length :=
        hlen.symm
    _ = ((List.range k).map (fun j => make_reaction_copy_id base (j + 1))).toFinset.card :=
        (List.toFinset_card_of_nodup hnd).symm
    _ ≤ (rs.map CobraReaction.id).toFinset.card := by
        apply Finset.card_le_card
        intro x hx
        rw [List.mem_toFinset] at hx ⊢
        exact hsub x hx
    _ ≤ (rs.map CobraReaction.id).length := List.toFinset_card_le _
    _ = rs.length := List.length_map _ _

/-- C1 counterexample: with reactions `A_copy1` and `A_copy2` both assembled
and a stoichiometry row for pre-resolution identifier `A`, the coefficient is
attached to BOTH copies (two reactions receive the metabolite `g_c`),
refuting "attaches the coefficient to exactly that one reaction / at most
one reaction per row". -/
theorem claim_C1_counterexample :
    ((linkRow ["g_c"] ([{ id := "A_copy1", mets := [] },
        { id := "A_copy2", mets := [] }], []) ⟨5, "A", "g", "c"⟩).1.countP
      (fun r => hasMet r "g_c")) = 2 := by
  decide

/-- C1 (amended): when the row's reaction identifier has no exact match, the
linker probes `_copy1`, `_copy2`, … and attaches the coefficient (guarded)
to EVERY consecutively matching probe, stopping at the first probe with no
match; the coefficient can thus reach several reactions, one per consecutive
matching probe, rather than exactly the first match. -/
theorem claim_C1_amended_probe_all_consecutive (metIds : List String)
    (rs : List CobraReaction) (w : List String) (row : StoichRow) (k : Nat)
    (hmet : (row.component_id ++ "_" ++ row.compartment_id) ∈ metIds)
    (hexact : containsId rs row.reaction_id = false)
    (hrun : ∀ j, 1 ≤ j → j ≤ k →
      containsId rs (make_reaction_copy_id row.reaction_id j) = true)
    (hgap : containsId rs (make_reaction_copy_id row.reaction_id (k + 1)) = false) :
    linkRow metIds (rs, w) row =
      (attachSeq row.reaction_id (row.component_id ++ "_" ++ row.compartment_id)
        row.stoich 1 k rs, w) := by
  have hany : (metIds.any fun x => x == row.component_id ++ "_" ++ row.compartment_id)
      = true := by
    rw [List.any_eq_true]
    exact ⟨_, hmet, by simp⟩
  unfold linkRow
  simp only [hany, if_true, hexact, Bool.false_eq_true, if_false]
  rw [probeLoop_run row.reaction_id _ row.stoich k (rs.length + 1) 1 rs
    (by have := run_le_length rs row.reaction_id k hrun; omega)
    (fun j hj1 hj2 => hrun j hj1 (by omega))
    (by rw [show 1 + k = k + 1 from by omega]; exact hgap)]

/-- Witness for C1 (amended): one matching probe (`A_copy1` exists,
`A_copy2` does not). -/
theorem claim_C1_witness :
    linkRow ["g_c"] ([{ id := "A_copy1", mets := [] }], []) ⟨2, "A", "g", "c"⟩ =
      (attachSeq "A" "g_c" 2 1 1 [{ id := "A_copy1", mets := [] }], []) := by
  apply claim_C1_amended_probe_all_consecutive
  · decide
  · decide
  · intro j hj1 hj2
    have hj : j = 1 := by omega
    subst hj
    decide
  · decide

/-! ### C6: the stoichiometry-map no-duplicate invariant -/

/-- No reaction's stoichiometry map contains the same metabolite key twice. -/
def NoDupMets (rs : List CobraReaction) : Prop :=
  ∀ r ∈ rs, (r.mets.map Prod.fst).Nodup

instance (rs : List CobraReaction) : Decidable (NoDupMets rs) :=
  inferInstanceAs (Decidable (∀ r ∈ rs, (r.mets.map Prod.fst).Nodup))

theorem attach_preserves_noDupMets (rs : List CobraReaction) (rid m : String)
    (c : Rat) (h : NoDupMets rs) : NoDupMets (attach rs rid m c) := by
  intro r' hr'
  unfold attach at hr'
  rw [List.mem_map] at hr'
  obtain ⟨r, hr, rfl⟩ := hr'
  by_cases h1 : r.id == rid
  · rw [if_pos h1]
    by_cases h2 : hasMet r m
    · rw [if_pos h2]
      exact h r hr
    · rw [if_neg h2]
      show ((r.mets ++ [(m, c)]).map Prod.fst).Nodup
      rw [List.map_append]
      rw [List.nodup_append]
      refine ⟨h r hr, by simp, ?_⟩
      intro x hx hxm
      rw [List.mem_map] at hx
      obtain ⟨p, hp, hpm⟩ := hx
      unfold hasMet at h2
      rw [Bool.not_eq_true, List.any_eq_false] at h2
      have hne : p.1 ≠ m := by simpa using h2 p hp
      have hxm' : x = m := by simpa using hxm
      exact hne (hpm.trans hxm')
  · rw [if_neg h1]
    exact h r hr

theorem probeLoop_preserves_noDupMets (base m : String) (c : Rat) :
    ∀ (fuel n : Nat) (rs : List CobraReaction), NoDupMets rs →
    NoDupMets (probeLoop base m c fuel n rs) := by
  intro fuel
  induction fuel with
  | zero => intro n rs h; exact h
  | succ f ih =>
    intro n rs h
    unfold probeLoop
    by_cases hc : containsId rs (make_reaction_copy_id base n)
    · rw [hc]
      simp only [if_true]
      exact ih (n + 1) _ (attach_preserves_noDupMets rs _ m c h)
    · rw [Bool.not_eq_true] at hc
      rw [hc]
      simpa using h

theorem linkRow_preserves_noDupMets (metIds : List String)
    (st : List CobraReaction × List String) (row : StoichRow)
    (h : NoDupMets st.1) : NoDupMets (linkRow metIds st row).1 := by
  unfold linkRow
  by_cases h1 : (metIds.any fun x => x == row.component_id ++ "_" ++ row.compartment_id) = true
  · simp only [h1, if_true]
    by_cases h2 : containsId st.1 row.reaction_id = true
    · simp only [h2, if_true]
      exact attach_preserves_noDupMets st.1 _ _ _ h
    · rw [Bool.not_eq_true] at h2
      simp only [h2, Bool.false_eq_true, if_false]
      exact probeLoop_preserves_noDupMets _ _ _ _ _ st.1 h
  · rw [Bool.not_eq_true] at h1
    simp only [h1, Bool.false_eq_true, if_false]
    exact h

/-- C6: across the whole matrix pass, including duplicate rows for the same
`(reaction, metabolite)` pair, no reaction's stoichiometry map ever holds the
same metabolite key twice; and the guarded insert skips a row whose resolved
metabolite is already present, leaving the reaction list unchanged. -/
theorem claim_C6_idempotent_insert (metIds : List String) (rows : List StoichRow)
    (rs : List CobraReaction) (h : NoDupMets rs) :
    NoDupMets (linkMatrix metIds rows rs).1 ∧
    (∀ (rid m : String) (c : Rat), (∀ r ∈ rs, r.id = rid → hasMet r m = true) →
      attach rs rid m c = rs) := by
  constructor
  · have haux : ∀ (rows' : List StoichRow) (st : List CobraReaction × List String),
        NoDupMets st.1 → NoDupMets (rows'.foldl (linkRow metIds) st).1 := by
      intro rows'
      induction rows' with
      | nil => intro st hst; exact hst
      | cons row rest ih =>
        intro st hst
        rw [List.foldl_cons]
        exact ih _ (linkRow_preserves_noDupMets metIds st row hst)
    exact haux rows (rs, []) h
  · intro rid m c hall
    unfold attach
    conv_rhs => rw [← List.map_id rs]
    apply List.map_congr_left
    intro r hr
    by_cases h1 : r.id == rid
    · rw [if_pos h1, if_pos (hall r hr (by simpa using h1))]
      rfl
    · rw [if_neg h1]
      rfl

/-- Witness for C6: two duplicate rows for the `(R1, m_c)` pair; the map
keys stay duplicate-free. -/
theorem claim_C6_witness :
    NoDupMets (linkMatrix ["m_c"] [⟨2, "R1", "m", "c"⟩, ⟨3, "R1", "m", "c"⟩]
      [{ id := "R1", mets := [("m_c", 1)] }]).1 :=
  (claim_C6_idempotent_insert ["m_c"] [⟨2, "R1", "m", "c"⟩, ⟨3, "R1", "m", "c"⟩]
    [{ id := "R1", mets := [("m_c", 1)] }] (by decide)).1

/-! ### Genome/Synonym Loader: gene identity resolution
(`component_loading.py` lines 174-176 and 191-219)

A feature is embedded by its two relevant qualifiers after `_get_qual`
extraction (first value, stripped, `none` when missing or empty).
`scrub_gene_id` lives in `cobradb.util`, outside the given sources; the
claims do not depend on what scrubbing does, so the theorems quantify over
the scrub function.  A `cobra_id` of `none` in the result encodes the
`continue` that skips the feature before any gene lookup or creation. -/

structure Feature where
  locus_tag : Option String
  gene : Option String
deriving DecidableEq, Repr

def warning_num : Nat := 5

structure IdResolution where
  cobra_id : Option String
  gene_name : Option String
  locus_tag : Option String
  warn_msgs : List String
  error_msgs : List String
  counter : Nat
deriving DecidableEq, Repr

/-- Lines 191-219: compute the candidate gene identity, the log lines
emitted, and the updated fallback-warning counter for one CDS feature. -/
def resolve_feature_id (scrub : String → String) (chrom : String) (i : Nat)
    (feat : Feature) (cobra_id_warnings : Nat) : IdResolution :=
  match feat.gene, feat.locus_tag.map scrub with
  | some g, none =>
    let msg := "No locus_tag for gene. Using Gene name as cobra_id: " ++ g ++
      (if cobra_id_warnings == warning_num
       then " (Warnings limited to " ++ natStr warning_num ++ ")" else "")
    { cobra_id := some (scrub g), gene_name := some (scrub g),
      locus_tag := feat.locus_tag,
      warn_msgs := if cobra_id_warnings ≤ warning_num then [msg] else [],
      error_msgs := [],
      counter := if cobra_id_warnings ≤ warning_num
                 then cobra_id_warnings + 1 else cobra_id_warnings }
  | none, none =>
    { cobra_id := none, gene_name := none, locus_tag := feat.locus_tag,
      warn_msgs := [],
      error_msgs := ["No locus_tag or gene name for gene " ++ natStr i ++
        " in chromosome " ++ chrom],
      counter := cobra_id_warnings }
  | g, some c =>
    { cobra_id := some c, gene_name := g, locus_tag := feat.locus_tag,
      warn_msgs := [], error_msgs := [], counter := cobra_id_warnings }

/-- C5: gene-identity precedence with capped fallback warnings: a present
locus tag yields the scrubbed locus tag as identifier (no warning); with no
locus tag but a gene name, the scrubbed gene name becomes both identifier
and name, a plain fallback warning is logged on each of the first five
occurrences, the sixth occurrence carries the `Warnings limited to 5`
summary suffix, later occurrences log nothing; with neither qualifier the
feature is skipped (`cobra_id = none`, so no gene is looked up or created)
and an error is logged. -/
theorem claim_C5_gene_identity_precedence (scrub : String → String) (chrom : String)
    (i : Nat) (feat : Feature) (c : Nat) :
    (∀ t, feat.locus_tag = some t →
      (resolve_feature_id scrub chrom i feat c).cobra_id = some (scrub t) ∧
      (resolve_feature_id scrub chrom i feat c).warn_msgs = [] ∧
      (resolve_feature_id scrub chrom i feat c).error_msgs = [] ∧
      (resolve_feature_id scrub chrom i feat c).counter = c) ∧
    (feat.locus_tag = none → ∀ g, feat.gene = some g →
      (resolve_feature_id scrub chrom i feat c).cobra_id = some (scrub g) ∧
      (resolve_feature_id scrub chrom i feat c).gene_name = some (scrub g) ∧
      (c < 5 → (resolve_feature_id scrub chrom i feat c).warn_msgs =
        ["No locus_tag for gene. Using Gene name as cobra_id: " ++ g]) ∧
      (c = 5 → (resolve_feature_id scrub chrom i feat c).warn_msgs =
        ["No locus_tag for gene. Using Gene name as cobra_id: " ++ g ++
          " (Warnings limited to 5)"]) ∧
      (5 < c → (resolve_feature_id scrub chrom i feat c).warn_msgs = []) ∧
      (resolve_feature_id scrub chrom i feat c).error_msgs = [] ∧
      (resolve_feature_id scrub chrom i feat c).counter = if c ≤ 5 then c + 1 else c) ∧
    (feat.locus_tag = none → feat.gene = none →
      (resolve_feature_id scrub chrom i feat c).cobra_id = none ∧
      (resolve_feature_id scrub chrom i feat c).warn_msgs = [] ∧
      (resolve_feature_id scrub chrom i feat c).error_msgs =
        ["No locus_tag or gene name for gene " ++ natStr i ++
          " in chromosome " ++ chrom]) := by
  refine ⟨?_, ?_, ?_⟩
  · intro t ht
    unfold resolve_feature_id
    rw [ht]
    cases feat.gene <;> exact ⟨rfl, rfl, rfl, rfl⟩
  · intro hlt g hg
    unfold resolve_feature_id
    rw [hlt, hg]
    refine ⟨rfl, rfl, ?_, ?_, ?_, rfl, rfl⟩
    · intro hc
      have h1 : (c == warning_num) = false := by
        simp only [beq_eq_false_iff_ne, warning_num]
        omega
      have h2 : c ≤ warning_num := by
        simp only [warning_num]
        omega
      simp [h1, h2]
    · intro hc
      subst hc
      simp [warning_num]
      rw [show (" (Warnings limited to " ++ natStr 5 ++ ")" : String) =
        " (Warnings limited to 5)" from by decide]
    · intro hc
      have h2 : ¬ (c ≤ warning_num) := by
        simp only [warning_num]
        omega
      simp [h2]
  · intro hlt hg
    unfold resolve_feature_id
    rw [hlt, hg]
    exact ⟨rfl, rfl, rfl⟩

/-- Witness for C5: feature with no locus tag and `gene = thrA`, first
occurrence: the identifier is the scrubbed gene name and one plain fallback
warning is logged; the counter advances to 1. -/
theorem claim_C5_witness :
    (resolve_feature_id (fun s => s) "NC_000913" 0 ⟨none, some "thrA"⟩ 0).cobra_id
        = some "thrA" ∧
    (resolve_feature_id (fun s => s) "NC_000913" 0 ⟨none, some "thrA"⟩ 0).warn_msgs
        = ["No locus_tag for gene. Using Gene name as cobra_id: thrA"] ∧
    (resolve_feature_id (fun s => s) "NC_000913" 0 ⟨none, some "thrA"⟩ 0).counter = 1 := by
  have h := (claim_C5_gene_identity_precedence (fun s => s) "NC_000913" 0
    ⟨none, some "thrA"⟩ 0).2.1 rfl "thrA" rfl
  refine ⟨h.1, ?_, ?_⟩
  · exact h.2.2.1 (by omega)
  · rw [h.2.2.2.2.2.2]
    rfl

end Cobradb
